import Mathlib

/-!
Verification of the wb-access-logs analysis pipeline.

Shallow embedding of the repository code:
- the generic windowed-average downsampler of the country visualization
  (ip-location, also used with three columns in bot-vs-browser.ts);
- the per-line traffic aggregation of analyze_traffic_geo.js
  (minute buckets, geo cache, country and status totals);
- the peak-minute scan and the percentage rounding of its main function;
- the per-bot geo enrichment loop of enrich_bot_geo.js.

JavaScript numbers are modelled with Int and Rat; Math.round is
floor (x + 1/2), which matches Math.round on every value the pipeline
produces (round-half-up, also for .5 ties). JavaScript objects used as
string-keyed counter maps are modelled as association lists with
insertion-order append, mirroring object key order.
-/

/-- Math.round: round half toward positive infinity. -/
def jsRound (q : ℚ) : ℤ := ⌊q + 1 / 2⌋

/-- Math.ceil(len / targetPoints) on naturals, the chunk width of both
downsample implementations (the spec calls it windowSize). A targetPoints
of 0 yields 0 here, standing for the Infinity ratio JavaScript produces;
chunksOf treats that as one single window, exactly as the JS loop does. -/
def windowSize (len targetPoints : ℕ) : ℕ := (len + targetPoints - 1) / targetPoints

/-- The chunking loop of downsample:
for (i = 0; i < len; i += ratio) chunk = data.slice(i, min(i + ratio, len)).
A width of 0 models the Infinity ratio a targetPoints of 0 produces in
JavaScript: the loop then runs exactly once over the whole input. -/
def chunksOf {α : Type} (n : ℕ) (l : List α) : List (List α) :=
  match l with
  | [] => []
  | x :: xs =>
    if _h : n = 0 then [x :: xs]
    else (x :: xs).take n :: chunksOf n ((x :: xs).drop n)
termination_by l.length
decreasing_by
  simp only [List.length_drop, List.length_cons]
  omega

/-- One column average of a chunk:
Math.round(chunk.reduce((s, row) => s + row[col], 0) / chunk.length). -/
def avgColumn (chunk : List (List ℤ)) (col : ℕ) : ℤ :=
  jsRound (((chunk.map (fun row => row.getD col 0)).sum : ℚ) / (chunk.length : ℚ))

/-- The per-chunk averaged entry: one value per column of chunk[0]. -/
def avgChunk (chunk : List (List ℤ)) : List ℤ :=
  (List.range (chunk.headD []).length).map (avgColumn chunk)

/-- downsample from the ip-location visualization (width-generic):
identity when data.length <= targetPoints, otherwise the per-chunk
column averages with ratio = Math.ceil(data.length / targetPoints). -/
def downsample (data : List (List ℤ)) (targetPoints : ℕ) : List (List ℤ) :=
  if data.length ≤ targetPoints then data
  else chunksOf (windowSize data.length targetPoints) data |>.map avgChunk

/-- The averaged triple of bot-vs-browser.ts: offset, bot and browser
columns averaged with the same Math.round(mean) as the generic version. -/
def avgTriple (chunk : List (ℤ × ℤ × ℤ)) : ℤ × ℤ × ℤ :=
  (jsRound (((chunk.map (fun d => d.1)).sum : ℚ) / (chunk.length : ℚ)),
   jsRound (((chunk.map (fun d => d.2.1)).sum : ℚ) / (chunk.length : ℚ)),
   jsRound (((chunk.map (fun d => d.2.2)).sum : ℚ) / (chunk.length : ℚ)))

/-- downsample from bot-vs-browser.ts: the same algorithm specialized to
three-column rows [minute_offset, bot_count, browser_count]. -/
def downsample3 (data : List (ℤ × ℤ × ℤ)) (targetPoints : ℕ) : List (ℤ × ℤ × ℤ) :=
  if data.length ≤ targetPoints then data
  else chunksOf (windowSize data.length targetPoints) data |>.map avgTriple

/-- Country percentage of analyze_traffic_geo.js line 500 and
enrich_bot_geo.js line 142: Math.round((count / total) * 10000) / 100. -/
def countryPercentage (count total : ℕ) : ℚ :=
  (jsRound ((count : ℚ) / (total : ℚ) * 10000) : ℚ) / 100

/-- The peak-minute loop of analyze_traffic_geo.js lines 455-462:
peakMinute starts at sortedMinutes[0], peakRequests at 0, and each
minute with a strictly larger request count replaces the pair. -/
def peakLoop (cnt : String → ℕ) : List String → String × ℕ → String × ℕ
  | [], acc => acc
  | k :: ks, acc => peakLoop cnt ks (if cnt k > acc.2 then (k, cnt k) else acc)

/-- Scan the sorted minute keys for the peak minute and its count. -/
def peakScan (keys : List String) (cnt : String → ℕ) : String × ℕ :=
  peakLoop cnt keys (keys.headD "", 0)

/-- The concrete example series of the windowed mean law. -/
def dsRows : List (List ℤ) := [[0, 10], [1, 20], [2, 30], [3, 40]]

/-- JavaScript object property read, modelling map[key] on a
string-keyed object held as an insertion-ordered association list. -/
def alookup {α : Type} (k : String) : List (String × α) → Option α
  | [] => none
  | (p, v) :: rest => if p = k then some v else alookup k rest

/-- The request counts of the tie-break example: T0 has 5, T1 and T2
both have the maximal 9. -/
def cntT (k : String) : ℕ := (alookup k [("T0", 5), ("T1", 9), ("T2", 9)]).getD 0

/-- One successful geo lookup result of the fast-geoip capability; the
string fields region, city and timezone use the empty string for an
absent or falsy attribute (the enrichment script tests them for
truthiness), and a falsy country string counts as Unknown there. -/
structure GeoInfo where
  country : String
  region : String
  city : String
  timezone : String
deriving DecidableEq

/-- Outcome of invoking the injected lookup capability on an IP:
ok (some g) is a result object, ok none a null result, err a thrown
error. -/
inductive LookupResult where
  | ok : Option GeoInfo → LookupResult
  | err : LookupResult
deriving DecidableEq

/-- A parsed log record as the traffic pipeline consumes it after the
grammar and timestamp matches; size is none when the byte field is a
dash. -/
structure LogRecord where
  ip : String
  minuteKey : String
  status : String
  size : Option ℕ
deriving DecidableEq

/-- One minute bucket: requests, bytes, countries and status_codes of
analyze_traffic_geo.js lines 337-342. -/
structure Bucket where
  requests : ℕ
  bytes : ℕ
  countries : List (String × ℕ)
  status_codes : List (String × ℕ)
deriving DecidableEq

def emptyBucket : Bucket := ⟨0, 0, [], []⟩

/-- (m[k] || 0) + 1: read-with-default-zero increment of a counter map,
appending a fresh key at the end as JS object insertion does. -/
def incr (k : String) : List (String × ℕ) → List (String × ℕ)
  | [] => [(k, 1)]
  | (p, v) :: rest => if p = k then (p, v + 1) :: rest else (p, v) :: incr k rest

/-- Sum of the values of a counter map. -/
def sumVals (m : List (String × ℕ)) : ℕ := (m.map Prod.snd).sum

/-- Counter read with default zero. -/
def lookupZ (m : List (String × ℕ)) (k : String) : ℕ := (alookup k m).getD 0

/-- Lazy bucket creation: if (!minuteData[minuteKey]) install the empty
bucket. -/
def getOrInit (m : List (String × Bucket)) (k : String) : List (String × Bucket) :=
  if (alookup k m).isSome then m else m ++ [(k, emptyBucket)]

/-- In-place mutation of the bucket stored under a key. -/
def updateBucket (k : String) (f : Bucket → Bucket) :
    List (String × Bucket) → List (String × Bucket)
  | [] => []
  | (p, b) :: rest => if p = k then (p, f b) :: rest else (p, b) :: updateBucket k f rest

/-- The shared mutable state of one traffic run: minuteData,
countryTotals, statusTotals and the ipCache, plus the trace of IPs for
which the lookup capability was actually invoked. -/
structure TState where
  minuteData : List (String × Bucket)
  countryTotals : List (String × ℕ)
  statusTotals : List (String × ℕ)
  ipCache : List (String × String)
  calls : List String
deriving DecidableEq

def initState : TState := ⟨[], [], [], [], []⟩

/-- The cached resolve of lines 357-367: on a cache hit return the
cached country without touching the capability; on a miss invoke it,
map a null result or a thrown error to Unknown, and cache the answer.
The boolean records whether the capability was invoked. -/
def resolveCountry (lookup : String → LookupResult) (cache : List (String × String))
    (ip : String) : String × List (String × String) × Bool :=
  match alookup ip cache with
  | some c => (c, cache, false)
  | none =>
    let c := match lookup ip with
      | .ok (some g) => g.country
      | .ok none => "Unknown"
      | .err => "Unknown"
    (c, cache ++ [(ip, c)], true)

/-- The per-record body of processLogFile lines 336-373: lazy bucket
init, request count, byte count (skipped on a dash), status counts,
cached country resolve, then country counts, as one state transition. -/
def processRecord (lookup : String → LookupResult) (st : TState) (r : LogRecord) : TState :=
  let md0 := getOrInit st.minuteData r.minuteKey
  let md1 := updateBucket r.minuteKey (fun b => { b with requests := b.requests + 1 }) md0
  let md2 := match r.size with
    | some s => updateBucket r.minuteKey (fun b => { b with bytes := b.bytes + s }) md1
    | none => md1
  let md3 := updateBucket r.minuteKey
    (fun b => { b with status_codes := incr r.status b.status_codes }) md2
  let res := resolveCountry lookup st.ipCache r.ip
  let md4 := updateBucket r.minuteKey
    (fun b => { b with countries := incr res.1 b.countries }) md3
  { minuteData := md4
    countryTotals := incr res.1 st.countryTotals
    statusTotals := incr r.status st.statusTotals
    ipCache := res.2.1
    calls := if res.2.2 then st.calls ++ [r.ip] else st.calls }

/-- Fold the per-line transition over parsed records from a given
state. -/
def processFrom (lookup : String → LookupResult) (st : TState)
    (records : List LogRecord) : TState :=
  records.foldl (processRecord lookup) st

/-- One whole run over the parsed records of the input files, reading
the per-line body as a strictly sequential fold (each record fully
processed, its lookup awaited, before the next). The source does not
await its async line handler, so this sequential reading is an
idealization; chunkCalls below models the schedule the runtime actually
produces for one buffered chunk. -/
def processLog (lookup : String → LookupResult) (records : List LogRecord) : TState :=
  processFrom lookup initState records

/-- The capability invocations produced by the lines of one buffered
input chunk. rl.on applies the async handler without awaiting it:
readline emits every line of a chunk synchronously, each handler runs
up to the await of line 361 (the cache read of line 358 and, on a miss,
the invocation of geoip.lookup), and the cache write of line 366 runs
only in the continuation after the awaited promise settles, hence after
every handler of the chunk has already performed its cache read. So all
cache reads of a chunk see the pre-chunk cache, and each miss invokes
the capability. -/
def chunkCalls (cache : List (String × String)) : List String → List String
  | [] => []
  | ip :: ips =>
    (if (alookup ip cache).isSome then [] else [ip]) ++ chunkCalls cache ips

/-- Per-bot accumulator of enrich_bot_geo.js lines 89-93 plus the failed
lookup counter. -/
structure BotAgg where
  countryCounts : List (String × ℕ)
  regionCounts : List (String × ℕ)
  cityCounts : List (String × ℕ)
  timezoneCounts : List (String × ℕ)
  failed : ℕ
deriving DecidableEq

def emptyBotAgg : BotAgg := ⟨[], [], [], [], 0⟩

/-- One iteration of the per-IP loop of enrich_bot_geo.js lines 96-131:
a result object counts its country (falsy country counts as Unknown)
and conditionally region, city and timezone; a null result or a thrown
error counts Unknown and one failed lookup. -/
def botStep (lookup : String → LookupResult) (agg : BotAgg) (ip : String) : BotAgg :=
  match lookup ip with
  | .ok (some g) =>
    let country := if g.country = "" then "Unknown" else g.country
    { agg with
      countryCounts := incr country agg.countryCounts
      regionCounts :=
        if g.region = "" then agg.regionCounts
        else incr (country ++ "-" ++ g.region) agg.regionCounts
      cityCounts :=
        if g.city = "" then agg.cityCounts
        else incr (g.city ++ ", " ++ country) agg.cityCounts
      timezoneCounts :=
        if g.timezone = "" then agg.timezoneCounts
        else incr g.timezone agg.timezoneCounts }
  | .ok none =>
    { agg with countryCounts := incr "Unknown" agg.countryCounts, failed := agg.failed + 1 }
  | .err =>
    { agg with countryCounts := incr "Unknown" agg.countryCounts, failed := agg.failed + 1 }

/-- The whole per-IP loop over one bot. -/
def botGeoAgg (lookup : String → LookupResult) (ips : List String) : BotAgg :=
  ips.foldl (botStep lookup) emptyBotAgg

/-- One entry of the country percentage map of a bot. -/
structure CountryInfo where
  code : String
  name : String
  count : ℕ
  percentage : ℚ
deriving DecidableEq

/-- Lines 134-144 of enrich_bot_geo.js: the percentage entries over the
country counts of one bot, with totalForBot = ips.length as denominator;
countryName stands for the injected code-to-name table, an external
read-only collaborator. -/
def botCountryPercentages (countryName : String → String)
    (lookup : String → LookupResult) (ips : List String) : List (String × CountryInfo) :=
  (botGeoAgg lookup ips).countryCounts.map
    (fun p => (p.1, ⟨p.1, countryName p.1, p.2, countryPercentage p.2 ips.length⟩))

/-- The demonstration lookup capability: every IP resolves to US. -/
def demoLookup : String → LookupResult := fun _ => .ok (some ⟨"US", "", "", ""⟩)

/-- A demonstration parsed record. -/
def demoRecord : LogRecord := ⟨"1.2.3.4", "2025-01-01T00:00:00", "200", some 123⟩

/-- The demonstration failing capability: every lookup throws. -/
def errLookup : String → LookupResult := fun _ => .err

/-- A demonstration record whose byte field was a dash. -/
def demoRecordDash : LogRecord := ⟨"9.9.9.9", "2025-01-01T00:02:00", "404", none⟩

theorem chunksOf_nil {α : Type} (n : ℕ) : chunksOf n ([] : List α) = [] := by
  simp [chunksOf]

theorem chunksOf_cons {α : Type} (n : ℕ) (hn : n ≠ 0) (x : α) (xs : List α) :
    chunksOf n (x :: xs) = (x :: xs).take n :: chunksOf n ((x :: xs).drop n) := by
  rw [chunksOf]
  simp [hn]

theorem chunksOf_length {α : Type} (n : ℕ) (hn : 0 < n) (l : List α) :
    (chunksOf n l).length = (l.length + n - 1) / n := by
  suffices h : ∀ (m : ℕ) (l : List α), l.length = m →
      (chunksOf n l).length = (l.length + n - 1) / n from h l.length l rfl
  intro m
  induction m using Nat.strong_induction_on with
  | _ m ih =>
    intro l hm
    match l with
    | [] =>
      simp only [chunksOf_nil, List.length_nil]
      exact (Nat.div_eq_of_lt (by omega)).symm
    | x :: xs =>
      rw [chunksOf_cons n (by omega)]
      have hrec := ih ((x :: xs).drop n).length
        (by rw [← hm]; simp; omega) ((x :: xs).drop n) rfl
      simp only [List.length_cons, List.length_drop] at hrec ⊢
      rw [hrec]
      rcases le_or_lt (xs.length + 1) n with hle | hlt
      · have h0 : xs.length + 1 - n = 0 := by omega
        rw [h0]
        have hz : (0 + n - 1) / n = 0 := Nat.div_eq_of_lt (by omega)
        have ho : (xs.length + 1 + n - 1) / n = 1 := by
          apply Nat.div_eq_of_lt_le <;> omega
        rw [hz, ho]
      · have he : xs.length + 1 + n - 1 = (xs.length + 1 - n + n - 1) + n := by omega
        rw [he, Nat.add_div_right _ hn]

theorem chunksOf_getD {α : Type} (n : ℕ) (hn : 0 < n) (l : List α) (i : ℕ) :
    (chunksOf n l).getD i [] = (l.drop (n * i)).take n := by
  suffices h : ∀ (m : ℕ) (l : List α) (i : ℕ), l.length = m →
      (chunksOf n l).getD i [] = (l.drop (n * i)).take n from h l.length l i rfl
  intro m
  induction m using Nat.strong_induction_on with
  | _ m ih =>
    intro l i hm
    match l with
    | [] => simp [chunksOf_nil, List.getD]
    | x :: xs =>
      rw [chunksOf_cons n (by omega)]
      match i with
      | 0 => simp
      | i + 1 =>
        rw [List.getD_cons_succ,
          ih ((x :: xs).drop n).length (by rw [← hm]; simp; omega) _ i rfl,
          List.drop_drop]
        congr 2
        ring

theorem chunksOf_mem {α : Type} (n : ℕ) (hn : 0 < n) (l c : List α)
    (hc : c ∈ chunksOf n l) : c ≠ [] ∧ ∀ x ∈ c, x ∈ l := by
  suffices h : ∀ (m : ℕ) (l c : List α), l.length = m → c ∈ chunksOf n l →
      c ≠ [] ∧ ∀ x ∈ c, x ∈ l from h l.length l c rfl hc
  intro m
  induction m using Nat.strong_induction_on with
  | _ m ih =>
    intro l c hm hcm
    match l with
    | [] => simp [chunksOf_nil] at hcm
    | x :: xs =>
      rw [chunksOf_cons n (by omega)] at hcm
      rcases List.mem_cons.mp hcm with h1 | h2
      · subst h1
        constructor
        · match n with
          | n + 1 => simp
        · intro y hy
          exact List.take_subset _ _ hy
      · have hrec := ih ((x :: xs).drop n).length
          (by rw [← hm]; simp; omega) ((x :: xs).drop n) c rfl h2
        exact ⟨hrec.1, fun y hy => List.drop_subset _ _ (hrec.2 y hy)⟩

theorem getD_map_eq {α β : Type} (f : α → β) (l : List α) (i : ℕ) (d : α) :
    (l.map f).getD i (f d) = f (l.getD i d) := by
  induction l generalizing i with
  | nil => simp [List.getD]
  | cons a tl ihc =>
    match i with
    | 0 => simp
    | i + 1 => simp [List.getD_cons_succ, ihc]

theorem windowSize_pos (n t : ℕ) (ht : 0 < t) (hn : 0 < n) : 0 < windowSize n t := by
  rw [windowSize]
  have h1 : 1 ≤ (n + t - 1) / t := (Nat.le_div_iff_mul_le ht).mpr (by omega)
  omega

/-- Arithmetic core of the length bound: with windowSize the ceiling of
len over target, the number of windows, itself a ceiling, is at most the
target. -/
theorem windows_le_target (n t : ℕ) (ht : 0 < t) (hn : 0 < n) :
    (n + windowSize n t - 1) / windowSize n t ≤ t := by
  have hw1 := windowSize_pos n t ht hn
  have h₀ : (n + t - 1) / t < windowSize n t + 1 := by
    rw [windowSize]
    exact Nat.lt_succ_self _
  have hkey := (Nat.div_lt_iff_lt_mul ht).mp h₀
  have hexp : (windowSize n t + 1) * t = windowSize n t * t + t := by ring
  rw [hexp] at hkey
  have hmul : n ≤ windowSize n t * t := by
    revert hkey
    generalize windowSize n t * t = p
    intro hkey
    omega
  rw [Nat.div_le_iff_le_mul_add_pred hw1]
  revert hmul
  generalize windowSize n t * t = p
  intro hmul
  omega

/-- C2. Windowed-mean downsampling: with more rows than the target and
uniform row width, downsample cuts the input into consecutive
non-overlapping windows of windowSize rows (the last possibly shorter)
and yields, per window, one row whose column c is the rounded mean of
column c over that window, column 0 treated like every other column. -/
theorem downsample_windowed_mean (rows : List (List ℤ)) (t w : ℕ)
    (ht : 0 < t) (hlen : t < rows.length) (hw : ∀ r ∈ rows, r.length = w) :
    (downsample rows t).length
        = (rows.length + windowSize rows.length t - 1) / windowSize rows.length t ∧
      ∀ i < (downsample rows t).length,
        (downsample rows t).getD i []
          = (List.range w).map (fun c =>
              jsRound (((((rows.drop (windowSize rows.length t * i)).take
                    (windowSize rows.length t)).map (fun r => r.getD c 0)).sum : ℚ) /
                ((((rows.drop (windowSize rows.length t * i)).take
                    (windowSize rows.length t)).length : ℚ)))) := by
  have hws : 0 < windowSize rows.length t := windowSize_pos rows.length t ht (by omega)
  have hds : downsample rows t = (chunksOf (windowSize rows.length t) rows).map avgChunk := by
    rw [downsample, if_neg (by omega)]
  constructor
  · rw [hds, List.length_map, chunksOf_length _ hws]
  · intro i hi
    rw [hds] at hi ⊢
    rw [List.length_map] at hi
    have h1 : ((chunksOf (windowSize rows.length t) rows).map avgChunk).getD i []
        = avgChunk ((chunksOf (windowSize rows.length t) rows).getD i []) := by
      conv_lhs => rw [show ([] : List ℤ) = avgChunk [] from rfl]
      exact getD_map_eq avgChunk _ i []
    rw [h1, chunksOf_getD _ hws]
    have hmem : (rows.drop (windowSize rows.length t * i)).take (windowSize rows.length t)
        ∈ chunksOf (windowSize rows.length t) rows := by
      rw [← chunksOf_getD _ hws, List.getD_eq_getElem _ _ hi]
      exact List.getElem_mem hi
    obtain ⟨hne, hsub⟩ := chunksOf_mem _ hws rows _ hmem
    rcases hwl : (rows.drop (windowSize rows.length t * i)).take (windowSize rows.length t) with
      _ | ⟨r0, rest⟩
    · exact absurd hwl hne
    · rw [hwl] at hsub
      have hhead : (((r0 :: rest) : List (List ℤ)).headD []).length = w := by
        simpa using hw r0 (hsub r0 (by simp))
      simp only [avgChunk, avgColumn, hhead]
      rfl

theorem downsample_windowed_mean_witness :
    ((downsample dsRows 2).length
        = (dsRows.length + windowSize dsRows.length 2 - 1) / windowSize dsRows.length 2 ∧
      ∀ i < (downsample dsRows 2).length,
        (downsample dsRows 2).getD i []
          = (List.range 2).map (fun c =>
              jsRound (((((dsRows.drop (windowSize dsRows.length 2 * i)).take
                    (windowSize dsRows.length 2)).map (fun r => r.getD c 0)).sum : ℚ) /
                ((((dsRows.drop (windowSize dsRows.length 2 * i)).take
                    (windowSize dsRows.length 2)).length : ℚ))))) ∧
      downsample dsRows 2 = [[1, 15], [3, 35]] :=
  ⟨downsample_windowed_mean dsRows 2 2 (by decide) (by decide) (by decide),
    by norm_num [dsRows, downsample, windowSize, chunksOf, avgChunk, avgColumn,
      jsRound, List.range_succ]⟩

/-- C4. Downsample length bound: with 0 < targetCount < len(rows) the
output has exactly ceil(len / windowSize) rows, and that count never
exceeds targetCount; the generic version covers every row width, and the
three-column bot-vs-browser version obeys the same bound. -/
theorem downsample_length_bound :
    (∀ (rows : List (List ℤ)) (t : ℕ), 0 < t → t < rows.length →
      (downsample rows t).length
          = (rows.length + windowSize rows.length t - 1) / windowSize rows.length t ∧
        (downsample rows t).length ≤ t) ∧
    ∀ (rows3 : List (ℤ × ℤ × ℤ)) (t : ℕ), 0 < t → t < rows3.length →
      (downsample3 rows3 t).length
          = (rows3.length + windowSize rows3.length t - 1) / windowSize rows3.length t ∧
        (downsample3 rows3 t).length ≤ t := by
  constructor
  · intro rows t ht hlen
    have hws := windowSize_pos rows.length t ht (by omega)
    have hl : (downsample rows t).length
        = (rows.length + windowSize rows.length t - 1) / windowSize rows.length t := by
      rw [downsample, if_neg (by omega), List.length_map, chunksOf_length _ hws]
    exact ⟨hl, hl ▸ windows_le_target rows.length t ht (by omega)⟩
  · intro rows3 t ht hlen
    have hws := windowSize_pos rows3.length t ht (by omega)
    have hl : (downsample3 rows3 t).length
        = (rows3.length + windowSize rows3.length t - 1) / windowSize rows3.length t := by
      rw [downsample3, if_neg (by omega), List.length_map, chunksOf_length _ hws]
    exact ⟨hl, hl ▸ windows_le_target rows3.length t ht (by omega)⟩

theorem downsample_length_bound_witness :
    ((downsample [[0], [1], [2], [3], [4]] 2).length
        = (([[0], [1], [2], [3], [4]] : List (List ℤ)).length
              + windowSize ([[0], [1], [2], [3], [4]] : List (List ℤ)).length 2 - 1)
            / windowSize ([[0], [1], [2], [3], [4]] : List (List ℤ)).length 2 ∧
      (downsample [[0], [1], [2], [3], [4]] 2).length ≤ 2) ∧
    ((downsample3 [(0, 1, 2), (1, 2, 3), (2, 3, 4)] 1).length
        = (([(0, 1, 2), (1, 2, 3), (2, 3, 4)] : List (ℤ × ℤ × ℤ)).length
              + windowSize ([(0, 1, 2), (1, 2, 3), (2, 3, 4)] : List (ℤ × ℤ × ℤ)).length 1 - 1)
            / windowSize ([(0, 1, 2), (1, 2, 3), (2, 3, 4)] : List (ℤ × ℤ × ℤ)).length 1 ∧
      (downsample3 [(0, 1, 2), (1, 2, 3), (2, 3, 4)] 1).length ≤ 1) :=
  ⟨downsample_length_bound.1 [[0], [1], [2], [3], [4]] 2 (by decide) (by decide),
    downsample_length_bound.2 [(0, 1, 2), (1, 2, 3), (2, 3, 4)] 1 (by decide) (by decide)⟩

/-- C3. Downsample identity law: when the input has at most targetCount
rows, both downsample implementations return the input unchanged (they
are pure functions of their input, so the input is not mutated). -/
theorem downsample_identity (rows : List (List ℤ)) (rows3 : List (ℤ × ℤ × ℤ))
    (t t3 : ℕ) (h : rows.length ≤ t) (h3 : rows3.length ≤ t3) :
    downsample rows t = rows ∧ downsample3 rows3 t3 = rows3 := by
  constructor
  · simp [downsample, h]
  · simp [downsample3, h3]

theorem downsample_identity_witness :
    downsample [[0, 10], [1, 20]] 5 = [[0, 10], [1, 20]] ∧
      downsample3 [(0, 3, 4)] 2 = [(0, 3, 4)] :=
  downsample_identity [[0, 10], [1, 20]] [(0, 3, 4)] 5 2 (by decide) (by decide)

theorem peakLoop_spec (cnt : String → ℕ) (ks : List String) :
    ∀ acc : String × ℕ,
      (peakLoop cnt ks acc = acc ∧ ∀ k ∈ ks, cnt k ≤ acc.2) ∨
      (∃ l1 l2, ks = l1 ++ (peakLoop cnt ks acc).1 :: l2 ∧
        cnt (peakLoop cnt ks acc).1 = (peakLoop cnt ks acc).2 ∧
        acc.2 < (peakLoop cnt ks acc).2 ∧
        (∀ k ∈ l1, cnt k < (peakLoop cnt ks acc).2) ∧
        (∀ k ∈ l2, cnt k ≤ (peakLoop cnt ks acc).2)) := by
  induction ks with
  | nil =>
    intro acc
    left
    exact ⟨rfl, by simp⟩
  | cons k ks ih =>
    intro acc
    by_cases hc : cnt k > acc.2
    · have hstep : peakLoop cnt (k :: ks) acc = peakLoop cnt ks (k, cnt k) := by
        simp [peakLoop, hc]
      rcases ih (k, cnt k) with ⟨heq, hall⟩ | ⟨l1, l2, hsplit, hcnt, hlt, hl1, hl2⟩
      · right
        rw [hstep, heq]
        exact ⟨[], ks, rfl, rfl, hc, by simp, hall⟩
      · right
        rw [hstep]
        refine ⟨k :: l1, l2, by rw [List.cons_append, ← hsplit], hcnt,
          lt_trans hc hlt, ?_, hl2⟩
        intro x hx
        rcases List.mem_cons.mp hx with hx | hx
        · rw [hx]
          exact hlt
        · exact hl1 x hx
    · have hstep : peakLoop cnt (k :: ks) acc = peakLoop cnt ks acc := by
        simp [peakLoop, hc]
      rcases ih acc with ⟨heq, hall⟩ | ⟨l1, l2, hsplit, hcnt, hlt, hl1, hl2⟩
      · left
        rw [hstep, heq]
        refine ⟨rfl, ?_⟩
        intro x hx
        rcases List.mem_cons.mp hx with hx | hx
        · rw [hx]
          omega
        · exact hall x hx
      · right
        rw [hstep]
        refine ⟨k :: l1, l2, by rw [List.cons_append, ← hsplit], hcnt, hlt, ?_, hl2⟩
        intro x hx
        rcases List.mem_cons.mp hx with hx | hx
        · rw [hx]
          omega
        · exact hl1 x hx

/-- C7. Peak-minute tie-break: scanning the bucket keys in order (the
main function passes them ascending, so list order is chronological
order), peakScan returns a key of maximal request count, and every key
scanned before it has a strictly smaller count, so among equal maxima
the chronologically first key wins. -/
theorem peak_minute_first_max (keys : List String) (cnt : String → ℕ)
    (hne : keys ≠ []) :
    (peakScan keys cnt).1 ∈ keys ∧
      cnt (peakScan keys cnt).1 = (peakScan keys cnt).2 ∧
      (∀ k ∈ keys, cnt k ≤ (peakScan keys cnt).2) ∧
      ∃ l1 l2, keys = l1 ++ (peakScan keys cnt).1 :: l2 ∧
        ∀ k ∈ l1, cnt k < (peakScan keys cnt).2 := by
  match keys with
  | [] => exact absurd rfl hne
  | k0 :: rest =>
    have hps : peakScan (k0 :: rest) cnt = peakLoop cnt (k0 :: rest) (k0, 0) := rfl
    rcases peakLoop_spec cnt (k0 :: rest) (k0, 0) with ⟨heq, hall⟩ |
      ⟨l1, l2, hsplit, hcnt, _, hl1, hl2⟩
    · rw [hps, heq]
      refine ⟨by simp, ?_, ?_, [], rest, rfl, by simp⟩
      · have h0 := hall k0 (by simp)
        show cnt k0 = 0
        omega
      · intro k hk
        exact hall k hk
    · rw [hps]
      set r := peakLoop cnt (k0 :: rest) (k0, 0) with hr
      refine ⟨?_, hcnt, ?_, l1, l2, hsplit, hl1⟩
      · rw [hsplit]
        simp
      · intro k hk
        rw [hsplit] at hk
        rcases List.mem_append.mp hk with h | h
        · exact le_of_lt (hl1 k h)
        · rcases List.mem_cons.mp h with h | h
          · rw [h, hcnt]
          · exact hl2 k h

theorem peak_minute_first_max_witness :
    peakScan ["T0", "T1", "T2"] cntT = ("T1", 9) ∧
      ((peakScan ["T0", "T1", "T2"] cntT).1 ∈ ["T0", "T1", "T2"] ∧
        cntT (peakScan ["T0", "T1", "T2"] cntT).1 = (peakScan ["T0", "T1", "T2"] cntT).2 ∧
        (∀ k ∈ ["T0", "T1", "T2"], cntT k ≤ (peakScan ["T0", "T1", "T2"] cntT).2) ∧
        ∃ l1 l2, ["T0", "T1", "T2"] = l1 ++ (peakScan ["T0", "T1", "T2"] cntT).1 :: l2 ∧
          ∀ k ∈ l1, cntT k < (peakScan ["T0", "T1", "T2"] cntT).2) :=
  ⟨rfl, peak_minute_first_max ["T0", "T1", "T2"] cntT (by decide)⟩

/-- C8. Percentage rounding: the exposed percentage is
round(count / total * 10000) / 100, each entry rounded independently;
with counts 1,1,1 and total 3 each percentage is 33.33, and the three
percentages sum to 99.99, not 100 (the documented drift). -/
theorem percentage_rounding :
    (∀ c t : ℕ, countryPercentage c t = (jsRound ((c : ℚ) / (t : ℚ) * 10000) : ℚ) / 100) ∧
      countryPercentage 1 3 = 3333 / 100 ∧
      countryPercentage 1 3 + countryPercentage 1 3 + countryPercentage 1 3 = 9999 / 100 ∧
      countryPercentage 1 3 + countryPercentage 1 3 + countryPercentage 1 3 ≠ 100 := by
  refine ⟨fun c t => rfl, ?_, ?_, ?_⟩ <;> norm_num [countryPercentage, jsRound]

theorem sumVals_incr (k : String) (m : List (String × ℕ)) :
    sumVals (incr k m) = sumVals m + 1 := by
  induction m with
  | nil => simp [incr, sumVals]
  | cons pv rest ih =>
    obtain ⟨p, v⟩ := pv
    rw [incr]
    by_cases h : p = k
    · simp [h, sumVals]
      omega
    · simp [h, sumVals] at ih ⊢
      omega

theorem updateBucket_comp (k : String) (f g : Bucket → Bucket)
    (m : List (String × Bucket)) :
    updateBucket k f (updateBucket k g m) = updateBucket k (fun b => f (g b)) m := by
  induction m with
  | nil => rfl
  | cons pb rest ih =>
    obtain ⟨p, b⟩ := pb
    by_cases h : p = k
    · simp [updateBucket, h]
    · simp [updateBucket, h, ih]

theorem processRecord_minuteData (lookup : String → LookupResult) (st : TState)
    (r : LogRecord) :
    (processRecord lookup st r).minuteData
      = updateBucket r.minuteKey
          (fun b =>
            { requests := b.requests + 1
              bytes := b.bytes + (match r.size with | some s => s | none => 0)
              countries := incr (resolveCountry lookup st.ipCache r.ip).1 b.countries
              status_codes := incr r.status b.status_codes })
          (getOrInit st.minuteData r.minuteKey) := by
  rcases hs : r.size with _ | s
  · simp only [processRecord, hs, updateBucket_comp]
    rfl
  · simp only [processRecord, hs, updateBucket_comp]

theorem inv_updateBucket (k : String) (f : Bucket → Bucket)
    (m : List (String × Bucket))
    (hm : ∀ p ∈ m, sumVals p.2.countries = p.2.requests)
    (hf : ∀ b, sumVals b.countries = b.requests →
      sumVals (f b).countries = (f b).requests) :
    ∀ p ∈ updateBucket k f m, sumVals p.2.countries = p.2.requests := by
  induction m with
  | nil => simp [updateBucket]
  | cons pb rest ih =>
    obtain ⟨p, b⟩ := pb
    by_cases h : p = k
    · simp only [updateBucket, h, if_pos]
      intro q hq
      rcases List.mem_cons.mp hq with hq | hq
      · rw [hq]
        exact hf b (hm (p, b) (by simp))
      · exact hm q (List.mem_cons_of_mem _ hq)
    · simp only [updateBucket, h, if_neg, not_false_iff]
      intro q hq
      rcases List.mem_cons.mp hq with hq | hq
      · rw [hq]
        exact hm (p, b) (by simp)
      · exact ih (fun q hq => hm q (List.mem_cons_of_mem _ hq)) q hq

theorem inv_getOrInit (m : List (String × Bucket)) (k : String)
    (hm : ∀ p ∈ m, sumVals p.2.countries = p.2.requests) :
    ∀ p ∈ getOrInit m k, sumVals p.2.countries = p.2.requests := by
  rw [getOrInit]
  split
  · exact hm
  · intro p hp
    rcases List.mem_append.mp hp with hp | hp
    · exact hm p hp
    · rcases List.mem_singleton.mp hp with rfl
      rfl

theorem inv_processRecord (lookup : String → LookupResult) (st : TState) (r : LogRecord)
    (hm : ∀ p ∈ st.minuteData, sumVals p.2.countries = p.2.requests) :
    ∀ p ∈ (processRecord lookup st r).minuteData,
      sumVals p.2.countries = p.2.requests := by
  rw [processRecord_minuteData]
  apply inv_updateBucket _ _ _ (inv_getOrInit _ _ hm)
  intro b hb
  simp [sumVals_incr, hb]

/-- C1. Bucket-sum invariant: after a run has aggregated all its parsed
records, every minute bucket has country counts summing to its request
count, because each record increments the request count and exactly one
country counter (a resolved code or Unknown). -/
theorem bucket_sum_invariant (lookup : String → LookupResult)
    (records : List LogRecord) :
    ∀ p ∈ (processLog lookup records).minuteData,
      sumVals p.2.countries = p.2.requests := by
  suffices h : ∀ (rs : List LogRecord) (st : TState),
      (∀ p ∈ st.minuteData, sumVals p.2.countries = p.2.requests) →
      ∀ p ∈ (processFrom lookup st rs).minuteData,
        sumVals p.2.countries = p.2.requests by
    exact h records initState (by intro p hp; simp [initState] at hp)
  intro rs
  induction rs with
  | nil =>
    intro st h
    exact h
  | cons r rs ih =>
    intro st h
    exact ih _ (inv_processRecord lookup st r h)

theorem bucket_sum_invariant_witness :
    sumVals (Bucket.mk 1 123 [("US", 1)] [("200", 1)]).countries
      = (Bucket.mk 1 123 [("US", 1)] [("200", 1)]).requests :=
  bucket_sum_invariant demoLookup [demoRecord]
    ("2025-01-01T00:00:00", Bucket.mk 1 123 [("US", 1)] [("200", 1)]) (by decide)

theorem alookup_append_of_none {α : Type} (m l2 : List (String × α)) (k : String)
    (h : alookup k m = none) : alookup k (m ++ l2) = alookup k l2 := by
  induction m with
  | nil => simp
  | cons pv rest ih =>
    obtain ⟨p, v⟩ := pv
    rw [alookup] at h
    rw [List.cons_append, alookup]
    by_cases hp : p = k
    · rw [if_pos hp] at h
      exact absurd h (by simp)
    · rw [if_neg hp] at h ⊢
      exact ih h

/-- C5. Cache-hit law, refuted on the code: the comment at line 357
states the cache exists to avoid repeated lookups, but because the
async line handler is never awaited, two lines of one chunk that carry
the same uncached IP both read the cache before either continuation
writes it, and the capability is invoked twice for that IP, violating
the at-most-once bound the claim states; the strictly sequential
reading of the run (processLog) would give at most one invocation. -/
theorem cache_double_invocation :
    (chunkCalls [] ["1.2.3.4", "1.2.3.4"]).count "1.2.3.4" = 2 ∧
      ¬ (chunkCalls [] ["1.2.3.4", "1.2.3.4"]).count "1.2.3.4" ≤ 1 ∧
      (processLog demoLookup [demoRecord, demoRecord]).calls.count "1.2.3.4" ≤ 1 := by
  refine ⟨by decide, by decide, by decide⟩

theorem lookupZ_incr_self (k : String) (m : List (String × ℕ)) :
    lookupZ (incr k m) k = lookupZ m k + 1 := by
  induction m with
  | nil => simp [incr, lookupZ, alookup]
  | cons pv rest ih =>
    obtain ⟨p, v⟩ := pv
    rw [incr]
    by_cases h : p = k
    · simp [lookupZ, alookup, h]
    · simp only [lookupZ, alookup, if_neg h] at ih ⊢
      exact ih

/-- C6. Geo-lookup failure absorption: when the capability throws or
returns null for an uncached IP, the traffic pipeline resolves and
caches the IP as Unknown and counts it like any country, and the bot
enrichment pass counts Unknown plus one failed lookup; in both cases the
step is a total state transition, so the error neither propagates nor
aborts the run, and no retry happens. -/
theorem geo_failure_unknown (lookup : String → LookupResult) (st : TState)
    (r : LogRecord) (agg : BotAgg) (ip : String)
    (hmiss : alookup r.ip st.ipCache = none)
    (hfail : lookup r.ip = .err ∨ lookup r.ip = .ok none)
    (hfail2 : lookup ip = .err ∨ lookup ip = .ok none) :
    alookup r.ip (processRecord lookup st r).ipCache = some "Unknown" ∧
      lookupZ (processRecord lookup st r).countryTotals "Unknown"
          = lookupZ st.countryTotals "Unknown" + 1 ∧
      (botStep lookup agg ip).countryCounts = incr "Unknown" agg.countryCounts ∧
      (botStep lookup agg ip).failed = agg.failed + 1 := by
  have hcountry : (resolveCountry lookup st.ipCache r.ip)
      = ("Unknown", st.ipCache ++ [(r.ip, "Unknown")], true) := by
    rcases hfail with hf | hf <;> simp [resolveCountry, hmiss, hf]
  refine ⟨?_, ?_, ?_, ?_⟩
  · simp only [processRecord, hcountry]
    rw [alookup_append_of_none _ _ _ hmiss]
    simp [alookup]
  · simp only [processRecord, hcountry]
    exact lookupZ_incr_self _ _
  · rcases hfail2 with hf | hf <;> simp [botStep, hf]
  · rcases hfail2 with hf | hf <;> simp [botStep, hf]

theorem geo_failure_unknown_witness :
    alookup "9.9.9.9" (processRecord errLookup initState demoRecordDash).ipCache
        = some "Unknown" ∧
      lookupZ (processRecord errLookup initState demoRecordDash).countryTotals "Unknown"
          = lookupZ initState.countryTotals "Unknown" + 1 ∧
      (botStep errLookup emptyBotAgg "8.8.8.8").countryCounts
          = incr "Unknown" emptyBotAgg.countryCounts ∧
      (botStep errLookup emptyBotAgg "8.8.8.8").failed = emptyBotAgg.failed + 1 :=
  geo_failure_unknown errLookup initState demoRecordDash emptyBotAgg "8.8.8.8"
    (by decide) (Or.inl rfl) (Or.inl rfl)

/-- C10. Per-bot country-sum invariant: every IP of a bot contributes
exactly one country increment (a resolved country or Unknown), so the
country counts of a bot sum to the length of its ip list, and the
percentage entries divide by exactly that sum (totalForBot =
ips.length). -/
theorem bot_country_sum (countryName : String → String)
    (lookup : String → LookupResult) (ips : List String) :
    sumVals (botGeoAgg lookup ips).countryCounts = ips.length ∧
      botCountryPercentages countryName lookup ips
        = (botGeoAgg lookup ips).countryCounts.map
            (fun p => (p.1, ⟨p.1, countryName p.1, p.2,
              countryPercentage p.2 (sumVals (botGeoAgg lookup ips).countryCounts)⟩)) := by
  have hstep : ∀ (agg : BotAgg) (ip : String),
      sumVals (botStep lookup agg ip).countryCounts = sumVals agg.countryCounts + 1 := by
    intro agg ip
    rcases hl : lookup ip with og | _
    · rcases og with _ | g
      · simp [botStep, hl, sumVals_incr]
      · simp [botStep, hl, sumVals_incr]
    · simp [botStep, hl, sumVals_incr]
  have hsum : ∀ (l : List String) (agg : BotAgg),
      sumVals (l.foldl (botStep lookup) agg).countryCounts
        = sumVals agg.countryCounts + l.length := by
    intro l
    induction l with
    | nil => intro agg; simp
    | cons ip l ih =>
      intro agg
      rw [List.foldl_cons, ih, hstep]
      simp
      omega
  have h1 : sumVals (botGeoAgg lookup ips).countryCounts = ips.length := by
    rw [botGeoAgg, hsum]
    simp [emptyBotAgg, sumVals]
  refine ⟨h1, ?_⟩
  rw [h1]
  rfl
